import Mathlib

/-!
Verification of the earthquake-observatory data pipeline (streamlit_app.py).

The script fetches a GeoJSON feed of seismic events, normalizes the features
into a flat table, enriches each record with local-time fields and a country
label, filters by year and country, and derives three aggregations.  This file
embeds that pipeline as executable Lean definitions and proves the frozen
claims about it.  Numbers from the feed (magnitude, depth, coordinates) are
modelled as rationals; instants are integer epoch milliseconds.
-/

namespace EQObs

/-- One raw feature of the feed: properties.place (nullable text),
properties.mag (nullable number), properties.time (epoch ms), and
geometry.coordinates = [longitude, latitude, depth-km] with nullable depth. -/
structure RawFeature where
  place : Option String
  mag : Option Rat
  time : Int
  longitude : Rat
  latitude : Rat
  depth : Option Rat
  deriving DecidableEq, Repr, Inhabited

/-- One dict appended to `records` in the load_data loop (lines 29-36):
Place, Magnitude, Time_UTC (epoch ms instant), Depth (km), Longitude,
Latitude.  Place is copied verbatim, so it stays nullable. -/
structure Row where
  place : Option String
  magnitude : Rat
  time_utc : Int
  depth_km : Rat
  longitude : Rat
  latitude : Rat
  deriving DecidableEq, Repr, Inhabited

/-- The normalizing loop of load_data (lines 24-36): for each feature, skip it
when properties.mag is null or coordinates[2] is null, otherwise append the
row with the fields copied verbatim. -/
def normalize : List RawFeature → List Row
  | [] => []
  | d :: rest =>
    if d.mag.isNone || d.depth.isNone then normalize rest
    else
      { place := d.place
        magnitude := d.mag.getD 0
        time_utc := d.time
        depth_km := d.depth.getD 0
        longitude := d.longitude
        latitude := d.latitude } :: normalize rest

/-- The whitespace class of the country regex: the characters the regex
engine's Unicode whitespace category matches on text patterns, i.e.
tab through carriage return (U+0009-U+000D), the separators U+001C-U+001F,
the space, next line (U+0085), no-break space (U+00A0), ogham space mark
(U+1680), the typographic spaces U+2000-U+200A, the line and paragraph
separators U+2028 and U+2029, narrow no-break space (U+202F), medium
mathematical space (U+205F) and ideographic space (U+3000). -/
def isPySpace (c : Char) : Bool :=
  let n := c.toNat
  (9 ≤ n && n ≤ 13) || (28 ≤ n && n ≤ 32) || n == 0x85 || n == 0xa0 ||
  n == 0x1680 || (0x2000 ≤ n && n ≤ 0x200a) || n == 0x2028 || n == 0x2029 ||
  n == 0x202f || n == 0x205f || n == 0x3000

/-- The tail of the country regex: a greedy dot-star capture followed by the
end anchor, run on the suffix t.  The dot does not match a newline and the
anchor matches at the end of the string or just before a final newline, so
the capture is t itself (no newline), t without a final newline, or no match
(an interior newline). -/
def matchDotStarDollar (t : List Char) : Option (List Char) :=
  if t.contains '\n' then
    if t.getLast? == some '\n' && !(t.dropLast.contains '\n')
    then some t.dropLast else none
  else some t

/-- Greedy whitespace-star with backtracking: try consuming k whitespace
characters of t, largest k first, and hand the rest to the dot-star-anchor
tail. -/
def tryWs (t : List Char) : Nat → Option (List Char)
  | 0 => matchDotStarDollar t
  | k + 1 =>
    match matchDotStarDollar (t.drop (k + 1)) with
    | some cap => some cap
    | none => tryWs t k

/-- Match the part of the country regex after the comma (whitespace-star then
the capture) against the suffix t. -/
def matchAfterComma (t : List Char) : Option (List Char) :=
  tryWs t (t.takeWhile isPySpace).length

/-- Leftmost regex search for the country pattern: scan for a comma and try
the remainder of the pattern at each one in turn, returning the first
successful capture. -/
def reSearchCountry : List Char → Option (List Char)
  | [] => none
  | c :: rest =>
    if c = ',' then
      match matchAfterComma rest with
      | some cap => some cap
      | none => reSearchCountry rest
    else reSearchCountry rest

/-- The country lambda of line 43 applied to a place string x: when x contains
a comma, search for the comma-whitespace-capture pattern and return group 1;
otherwise return Unknown.  A failed search makes group(1) raise, modelled as
none. -/
def countryOfPlaceStr (x : String) : Option String :=
  if x.data.contains ',' then
    (reSearchCountry x.data).map (fun cap => String.mk cap)
  else some "Unknown"

/-- The country lambda on the nullable Place column: a null place makes the
comma membership test raise a TypeError, modelled as none. -/
def countryOfPlace : Option String → Option String
  | none => none
  | some s => countryOfPlaceStr s

/-- Spec-side statement of the country rule as the code actually behaves:
the text after the FIRST comma, with the whitespace run following that comma
removed (trailing whitespace is kept). -/
def afterFirstComma (s : String) : String :=
  String.mk (((s.data.dropWhile (fun c => !(c == ','))).tail).dropWhile isPySpace)

/-- Spec-side record constructed from one raw feature: none when magnitude or
depth is null, otherwise the row with every field copied verbatim and
time_utc taken from the epoch-milliseconds field. -/
def specRecordOf (d : RawFeature) : Option Row :=
  match d.mag, d.depth with
  | some m, some dep =>
    some { place := d.place
           magnitude := m
           time_utc := d.time
           depth_km := dep
           longitude := d.longitude
           latitude := d.latitude }
  | _, _ => none

def msPerHour : Int := 3600000

def msPerDay : Int := 86400000

/-- A calendar date of the proleptic Gregorian calendar. -/
structure CivilDate where
  year : Int
  month : Int
  day : Int
  deriving DecidableEq, Repr, Inhabited

/-- Days since 1970-01-01 of a civil date (standard civil-calendar
conversion; divisions are floor divisions). -/
def daysFromCivil (y m d : Int) : Int :=
  let y' := if m ≤ 2 then y - 1 else y
  let era := y' / 400
  let yoe := y' - era * 400
  let mp := if m > 2 then m - 3 else m + 9
  let doy := (153 * mp + 2) / 5 + d - 1
  let doe := yoe * 365 + yoe / 4 - yoe / 100 + doy
  era * 146097 + doe - 719468

/-- The civil date of a count of days since 1970-01-01 (inverse of
daysFromCivil). -/
def civilFromDays (z0 : Int) : CivilDate :=
  let z := z0 + 719468
  let era := z / 146097
  let doe := z - era * 146097
  let yoe := (doe - doe / 1460 + doe / 36524 - doe / 146096) / 365
  let y := yoe + era * 400
  let doy := doe - (365 * yoe + yoe / 4 - yoe / 100)
  let mp := (5 * doy + 2) / 153
  let d := doy - (153 * mp + 2) / 5 + 1
  let m := if mp < 10 then mp + 3 else mp - 9
  { year := if m ≤ 2 then y + 1 else y, month := m, day := d }

/-- Day of the week of a day count, 0 = Sunday (1970-01-01 was a Thursday). -/
def dayOfWeek (days : Int) : Int := (days + 4) % 7

/-- UTC instant (ms) at which daylight saving starts in America/Chicago in
year y under the rules in force since 2007: second Sunday of March at 02:00
standard time, i.e. 08:00 UTC. -/
def dstStartMs (y : Int) : Int :=
  let m1 := daysFromCivil y 3 1
  let firstSun := m1 + (7 - dayOfWeek m1) % 7
  (firstSun + 7) * msPerDay + 8 * msPerHour

/-- UTC instant (ms) at which daylight saving ends in America/Chicago in year
y: first Sunday of November at 02:00 daylight time, i.e. 07:00 UTC. -/
def dstEndMs (y : Int) : Int :=
  let n1 := daysFromCivil y 11 1
  let firstSun := n1 + (7 - dayOfWeek n1) % 7
  firstSun * msPerDay + 7 * msPerHour

/-- Modelled from the spec: the timezone conversion of line 39 must apply the
real America/Chicago transition rules of the timezone database (an external
library), not a fixed offset.  This embeds the IANA rules in force since
2007: UTC-5 while daylight saving is active, UTC-6 otherwise. -/
def chicagoOffsetMs (t : Int) : Int :=
  let y := (civilFromDays (t / msPerDay)).year
  if dstStartMs y ≤ t ∧ t < dstEndMs y then -5 * msPerHour else -6 * msPerHour

/-- Time_Central of line 39 as a local wall-clock instant in epoch ms: the
UTC instant shifted by the America/Chicago offset in effect at it. -/
def toCentralMs (t : Int) : Int := t + chicagoOffsetMs t

/-- The .dt.hour accessor on a local wall-clock instant. -/
def hourOfLocal (l : Int) : Int := l % msPerDay / msPerHour

/-- The .dt.date accessor on a local wall-clock instant. -/
def dateOfLocal (l : Int) : CivilDate := civilFromDays (l / msPerDay)

/-- One row of the finished table, with the enrichment columns of lines
39-43 added. -/
structure EventRecord where
  place : Option String
  magnitude : Rat
  time_utc : Int
  time_local : Int
  hour : Int
  date : CivilDate
  year : Int
  depth_km : Rat
  longitude : Rat
  latitude : Rat
  country : String
  deriving DecidableEq, Repr, Inhabited

/-- Lines 39-43 applied to one row, with the already-derived country label. -/
def enrichRow (r : Row) (country : String) : EventRecord :=
  let l := toCentralMs r.time_utc
  { place := r.place
    magnitude := r.magnitude
    time_utc := r.time_utc
    time_local := l
    hour := hourOfLocal l
    date := dateOfLocal l
    year := (dateOfLocal l).year
    depth_km := r.depth_km
    longitude := r.longitude
    latitude := r.latitude
    country := country }

/-- The country column applied row by row (line 43): the first row whose
place fails the derivation makes the whole apply raise, modelled as none. -/
def attachCountries : List Row → Option (List EventRecord)
  | [] => some []
  | r :: rest =>
    match countryOfPlace r.place with
    | none => none
    | some c =>
      match attachCountries rest with
      | none => none
      | some tl => some (enrichRow r c :: tl)

/-- Lines 38-44 of load_data: build the DataFrame from the normalized rows
and add the derived columns.  When the row list is empty the DataFrame has no
columns at all, so the column access of line 39 raises a KeyError, modelled
as none; a failing country derivation on line 43 also raises. -/
def buildTable (fs : List RawFeature) : Option (List EventRecord) :=
  let rows := normalize fs
  if rows.isEmpty then none
  else attachCountries rows

section GroupBy

variable {κ : Type} [DecidableEq κ]

/-- Add one key occurrence to a key-count association list. -/
def bump (k : κ) : List (κ × Nat) → List (κ × Nat)
  | [] => [(k, 1)]
  | (k', n) :: rest => if k' = k then (k', n + 1) :: rest else (k', n) :: bump k rest

/-- Group a key list and count the occurrences of each key, the semantics of
a groupby-size (the claims do not depend on the output order of the keys). -/
def groupCounts (keys : List κ) : List (κ × Nat) :=
  keys.foldl (fun acc k => bump k acc) []

/-- The count an association list holds for a key (0 when absent). -/
def assocCnt : List (κ × Nat) → κ → Nat
  | [], _ => 0
  | (k, n) :: rest, j => if j = k then n else assocCnt rest j

theorem bump_map_fst (k : κ) (acc : List (κ × Nat)) :
    (bump k acc).map Prod.fst =
      if k ∈ acc.map Prod.fst then acc.map Prod.fst else acc.map Prod.fst ++ [k] := by
  induction acc with
  | nil => simp [bump]
  | cons p rest ih =>
    obtain ⟨k', n⟩ := p
    by_cases h : k' = k
    · subst h
      simp [bump]
    · have : ¬k = k' := fun hh => h hh.symm
      simp only [bump, if_neg h, List.map_cons, List.mem_cons, this, false_or, ih]
      by_cases hm : k ∈ rest.map Prod.fst <;> simp [hm]

theorem mem_bump_map_fst (k j : κ) (acc : List (κ × Nat)) :
    j ∈ (bump k acc).map Prod.fst ↔ j ∈ acc.map Prod.fst ∨ j = k := by
  rw [bump_map_fst]
  by_cases h : k ∈ acc.map Prod.fst
  · rw [if_pos h]
    constructor
    · exact Or.inl
    · rintro (hj | rfl) <;> assumption
  · rw [if_neg h]
    simp

theorem nodup_bump_map_fst (k : κ) (acc : List (κ × Nat))
    (h : (acc.map Prod.fst).Nodup) : ((bump k acc).map Prod.fst).Nodup := by
  rw [bump_map_fst]
  by_cases hm : k ∈ acc.map Prod.fst
  · rwa [if_pos hm]
  · rw [if_neg hm]
    refine List.Nodup.append h (List.nodup_singleton k) ?_
    intro a ha hak
    rw [List.mem_singleton] at hak
    exact hm (hak ▸ ha)

theorem assocCnt_bump (k j : κ) (acc : List (κ × Nat)) :
    assocCnt (bump k acc) j =
      if j = k then assocCnt acc j + 1 else assocCnt acc j := by
  induction acc with
  | nil => by_cases h : j = k <;> simp [bump, assocCnt, h]
  | cons p rest ih =>
    obtain ⟨k', n⟩ := p
    by_cases h : k' = k
    · subst h
      by_cases hj : j = k' <;> simp [bump, assocCnt, hj]
    · by_cases hj : j = k'
      · subst hj
        simp [bump, assocCnt, h]
      · simp [bump, assocCnt, h, hj, ih]

theorem assocCnt_foldl (ks : List κ) :
    ∀ (acc : List (κ × Nat)) (j : κ),
      assocCnt (ks.foldl (fun a k => bump k a) acc) j =
        assocCnt acc j + ks.countP (fun a => decide (a = j)) := by
  induction ks with
  | nil => simp
  | cons k ks ih =>
    intro acc j
    rw [List.foldl_cons, ih, assocCnt_bump, List.countP_cons]
    by_cases h : k = j
    · have hd : (decide (k = j)) = true := decide_eq_true h
      rw [if_pos h.symm, hd]
      simp only [if_true]
      omega
    · have hd : (decide (k = j)) = false := decide_eq_false h
      have hj : ¬j = k := fun hh => h hh.symm
      rw [if_neg hj, hd]
      simp

theorem mem_map_fst_foldl (ks : List κ) :
    ∀ (acc : List (κ × Nat)) (j : κ),
      j ∈ ((ks.foldl (fun a k => bump k a) acc).map Prod.fst) ↔
        j ∈ acc.map Prod.fst ∨ j ∈ ks := by
  induction ks with
  | nil => simp
  | cons k ks ih =>
    intro acc j
    rw [List.foldl_cons, ih, mem_bump_map_fst]
    simp only [List.mem_cons]
    tauto

theorem nodup_map_fst_foldl (ks : List κ) :
    ∀ acc : List (κ × Nat),
      (acc.map Prod.fst).Nodup → ((ks.foldl (fun a k => bump k a) acc).map Prod.fst).Nodup := by
  induction ks with
  | nil => exact fun acc h => h
  | cons k ks ih => exact fun acc h => ih _ (nodup_bump_map_fst k acc h)

theorem assocCnt_of_mem :
    ∀ (acc : List (κ × Nat)) (j : κ) (n : Nat),
      (acc.map Prod.fst).Nodup → (j, n) ∈ acc → assocCnt acc j = n := by
  intro acc
  induction acc with
  | nil => intro j n _ h; cases h
  | cons p rest ih =>
    intro j n hnd hm
    obtain ⟨k', n'⟩ := p
    rcases List.mem_cons.mp hm with h | h
    · cases h
      simp [assocCnt]
    · have hj : j ∈ rest.map Prod.fst :=
        List.mem_map.mpr ⟨(j, n), h, rfl⟩
      have hk' : k' ∉ rest.map Prod.fst := (List.nodup_cons.mp (by simpa using hnd)).1
      have hne : ¬j = k' := fun hh => hk' (hh ▸ hj)
      simp only [assocCnt, if_neg hne]
      exact ih j n (List.nodup_cons.mp (by simpa using hnd)).2 h

theorem mem_of_mem_map_fst :
    ∀ (acc : List (κ × Nat)) (j : κ),
      j ∈ acc.map Prod.fst → (j, assocCnt acc j) ∈ acc := by
  intro acc
  induction acc with
  | nil => intro j h; cases h
  | cons p rest ih =>
    intro j h
    obtain ⟨k', n'⟩ := p
    by_cases hj : j = k'
    · subst hj
      simp [assocCnt]
    · have : j ∈ rest.map Prod.fst := by
        rw [List.map_cons, List.mem_cons] at h
        rcases h with h1 | h1
        · exact absurd h1 hj
        · exact h1
      simp only [assocCnt, if_neg hj]
      exact List.mem_cons_of_mem _ (ih j this)

theorem assocCnt_groupCounts (ks : List κ) (j : κ) :
    assocCnt (groupCounts ks) j = ks.countP (fun a => decide (a = j)) := by
  rw [groupCounts, assocCnt_foldl]
  simp [assocCnt]

end GroupBy

/-- The groupby key of the heatmap (line 91): the (Date, Hour) pair. -/
def heatKey (r : EventRecord) : CivilDate × Int := (r.date, r.hour)

/-- heat_df of line 91: group the filtered records by (Date, Hour) and count
each group. -/
def heat_df (tbl : List EventRecord) : List ((CivilDate × Int) × Nat) :=
  groupCounts (tbl.map heatKey)

/-- The by-country aggregation of the bar chart (count per country). -/
def countryCounts (tbl : List EventRecord) : List (String × Nat) :=
  groupCounts (tbl.map (fun r => r.country))

theorem dropWhile_eq_drop_len_takeWhile (p : Char → Bool) :
    ∀ t : List Char, t.dropWhile p = t.drop (t.takeWhile p).length := by
  intro t
  induction t with
  | nil => rfl
  | cons c rest ih =>
    by_cases h : p c <;> simp [List.dropWhile, List.takeWhile, h, ih]

theorem matchDotStarDollar_of_not_mem {t : List Char} (h : '\n' ∉ t) :
    matchDotStarDollar t = some t := by
  have hb : t.contains '\n' = false := by
    simpa [List.contains] using h
  unfold matchDotStarDollar
  rw [hb]
  simp

theorem matchAfterComma_of_not_mem {t : List Char} (h : '\n' ∉ t) :
    matchAfterComma t = some (t.dropWhile isPySpace) := by
  have hd : ∀ n : Nat, '\n' ∉ t.drop n := fun n hm => h (List.drop_subset n t hm)
  rw [dropWhile_eq_drop_len_takeWhile]
  unfold matchAfterComma
  rcases hN : (t.takeWhile isPySpace).length with _ | k
  · simpa [tryWs] using matchDotStarDollar_of_not_mem (by simpa using hd 0)
  · simp [tryWs, matchDotStarDollar_of_not_mem (hd (k + 1))]

theorem reSearchCountry_of_not_mem :
    ∀ l : List Char, '\n' ∉ l → ',' ∈ l →
      reSearchCountry l =
        some (((l.dropWhile (fun c => !(c == ','))).tail).dropWhile isPySpace) := by
  intro l
  induction l with
  | nil => intro _ hc; cases hc
  | cons c rest ih =>
    intro hnl hc
    by_cases hcomma : c = ','
    · subst hcomma
      have hrest : '\n' ∉ rest := fun hm => hnl (List.mem_cons_of_mem _ hm)
      simp [reSearchCountry, matchAfterComma_of_not_mem hrest]
    · have hc' : ',' ∈ rest := by
        rcases List.mem_cons.mp hc with h | h
        · exact absurd h.symm hcomma
        · exact h
      have hnl' : '\n' ∉ rest := fun hm => hnl (List.mem_cons_of_mem _ hm)
      have hb : (!(c == ',')) = true := by simp [hcomma]
      simp [reSearchCountry, hcomma, List.dropWhile_cons_of_pos hb, ih hnl' hc']

/-- Spec-side statement of the amended country rule on strings that may hold
newlines: scan the commas left to right; at each comma strip the whitespace
run after it; the capture is that suffix when it is newline-free, or that
suffix without its final character when its only newline is a trailing one;
otherwise the pattern does not match at this comma and the scan moves on
(none models the exception raised when no comma matches). -/
def specCommaScan : List Char → Option (List Char)
  | [] => none
  | c :: rest =>
    if c = ',' then
      if '\n' ∉ rest.dropWhile isPySpace then some (rest.dropWhile isPySpace)
      else if (rest.dropWhile isPySpace).getLast? = some '\n' ∧
          '\n' ∉ (rest.dropWhile isPySpace).dropLast then
        some (rest.dropWhile isPySpace).dropLast
      else specCommaScan rest
    else specCommaScan rest

theorem matchDotStarDollar_eq (t : List Char) :
    matchDotStarDollar t =
      if '\n' ∈ t then
        if t.getLast? = some '\n' ∧ '\n' ∉ t.dropLast then some t.dropLast else none
      else some t := by
  unfold matchDotStarDollar
  by_cases h1 : '\n' ∈ t
  · have hb : t.contains '\n' = true := by simpa [List.contains] using h1
    rw [if_pos hb, if_pos h1]
    by_cases h2 : t.getLast? = some '\n' ∧ '\n' ∉ t.dropLast
    · have hb2 : (t.getLast? == some '\n' && !t.dropLast.contains '\n') = true := by
        rw [Bool.and_eq_true]
        constructor
        · exact beq_iff_eq.mpr h2.1
        · have hcf : t.dropLast.contains '\n' = false := by
            simpa [List.contains] using h2.2
          rw [hcf]
          rfl
      rw [if_pos hb2, if_pos h2]
    · have hb2 : ¬(t.getLast? == some '\n' && !t.dropLast.contains '\n') = true := by
        intro hcontra
        rw [Bool.and_eq_true] at hcontra
        refine h2 ⟨beq_iff_eq.mp hcontra.1, ?_⟩
        have : t.dropLast.contains '\n' = false := by
          have h3 := hcontra.2
          rwa [Bool.not_eq_true'] at h3
        simpa [List.contains] using this
      rw [if_neg hb2, if_neg h2]
  · have hb : t.contains '\n' = false := by simpa [List.contains] using h1
    rw [if_neg (by rw [hb]; exact Bool.false_ne_true), if_neg h1]

theorem matchDotStarDollar_cons_none (c : Char) (u : List Char)
    (h : matchDotStarDollar u = none) : matchDotStarDollar (c :: u) = none := by
  rw [matchDotStarDollar_eq] at h ⊢
  by_cases h1 : '\n' ∈ u
  · have hne : u ≠ [] := List.ne_nil_of_mem h1
    rw [if_pos h1] at h
    have h2 : ¬(u.getLast? = some '\n' ∧ '\n' ∉ u.dropLast) := by
      intro hcontra
      rw [if_pos hcontra] at h
      cases h
    have hL : (c :: u).getLast? = u.getLast? := by
      cases u with
      | nil => exact absurd rfl hne
      | cons b l => exact List.getLast?_cons_cons
    have hD : (c :: u).dropLast = c :: u.dropLast := by
      cases u with
      | nil => exact absurd rfl hne
      | cons b l => exact List.dropLast_cons₂
    rw [if_pos (List.mem_cons_of_mem c h1), hL, hD]
    have not2 : ¬(u.getLast? = some '\n' ∧ '\n' ∉ c :: u.dropLast) := by
      intro hcontra
      exact h2 ⟨hcontra.1, fun hm => hcontra.2 (List.mem_cons_of_mem c hm)⟩
    rw [if_neg not2]
  · rw [if_neg h1] at h
    cases h

theorem matchDotStarDollar_drop_none (t : List Char) (k : Nat)
    (h : matchDotStarDollar (t.drop (k + 1)) = none) :
    matchDotStarDollar (t.drop k) = none := by
  cases ht : t.drop k with
  | nil =>
    have h1 : t.drop (k + 1) = [] := by
      rw [← List.tail_drop, ht]
      rfl
    rw [h1] at h
    exact absurd h (by decide)
  | cons c u =>
    have h1 : t.drop (k + 1) = u := by
      rw [← List.tail_drop, ht]
      rfl
    rw [h1] at h
    exact matchDotStarDollar_cons_none c u h

theorem tryWs_eq (t : List Char) : ∀ k : Nat, tryWs t k = matchDotStarDollar (t.drop k) := by
  intro k
  induction k with
  | zero => rfl
  | succ k ih =>
    unfold tryWs
    cases h : matchDotStarDollar (t.drop (k + 1)) with
    | some cap => rfl
    | none =>
      rw [ih]
      exact matchDotStarDollar_drop_none t k h

/-- The greedy whitespace backtracking never changes the result: a match that
only succeeds after giving whitespace back would be a suffix of the maximal
one, and failure of the maximal attempt forces failure of every shorter one. -/
theorem matchAfterComma_eq_dropWhile (t : List Char) :
    matchAfterComma t = matchDotStarDollar (t.dropWhile isPySpace) := by
  unfold matchAfterComma
  rw [tryWs_eq, ← dropWhile_eq_drop_len_takeWhile]

theorem reSearchCountry_eq_scan : ∀ l : List Char, reSearchCountry l = specCommaScan l := by
  intro l
  induction l with
  | nil => rfl
  | cons c rest ih =>
    unfold reSearchCountry specCommaScan
    by_cases hc : c = ','
    · rw [if_pos hc, if_pos hc, matchAfterComma_eq_dropWhile, matchDotStarDollar_eq]
      by_cases h1 : '\n' ∈ rest.dropWhile isPySpace
      · have hnn : ¬('\n' ∉ rest.dropWhile isPySpace) := fun hcontra => hcontra h1
        rw [if_pos h1, if_neg hnn]
        by_cases h2 : (rest.dropWhile isPySpace).getLast? = some '\n' ∧
            '\n' ∉ (rest.dropWhile isPySpace).dropLast
        · rw [if_pos h2, if_pos h2]
        · rw [if_neg h2, if_neg h2]
          exact ih
      · rw [if_neg h1, if_pos h1]
    · rw [if_neg hc, if_neg hc]
      exact ih

/-- C1 counterexample: on the place string with two commas the code keeps
everything after the FIRST comma, so the derived country is not the trimmed
substring after the last comma. -/
theorem c1_counterexample :
    countryOfPlaceStr "A, B, C" = some "B, C" ∧ ("B, C" : String) ≠ "C" := by
  constructor
  · rfl
  · decide

/-- C1 (amended): the derived country comes from the FIRST comma the pattern
matches at, not from the last comma: a place string with no comma gives
Unknown, and otherwise the result is the left-to-right comma scan that
strips the whitespace run after the comma (taking the whole remainder when
it is newline-free, dropping a single trailing newline, trying the next
comma otherwise, and raising — none — when no comma matches).  In
particular, for every newline-free place string containing a comma the
derived country is exactly the substring after the first comma with the
following whitespace run stripped. -/
theorem c1_country_after_first_comma (s : String) :
    countryOfPlaceStr s =
      (if s.data.contains ',' then (specCommaScan s.data).map (fun cap => String.mk cap)
       else some "Unknown") ∧
    ('\n' ∉ s.data → s.data.contains ',' = true →
      countryOfPlaceStr s = some (afterFirstComma s)) := by
  constructor
  · unfold countryOfPlaceStr
    by_cases hc : s.data.contains ','
    · rw [if_pos hc, if_pos hc, reSearchCountry_eq_scan]
    · rw [if_neg hc, if_neg hc]
  · intro hnl hcb
    have hcm : ',' ∈ s.data := by simpa [List.contains] using hcb
    unfold countryOfPlaceStr
    rw [if_pos hcb, reSearchCountry_of_not_mem s.data hnl hcm]
    rfl

theorem hourOfLocal_bounds (l : Int) : 0 ≤ hourOfLocal l ∧ hourOfLocal l ≤ 23 := by
  unfold hourOfLocal msPerDay msPerHour
  omega

theorem attachCountries_mem :
    ∀ (rows : List Row) (tbl : List EventRecord) (r : EventRecord),
      attachCountries rows = some tbl → r ∈ tbl →
        ∃ row c, row ∈ rows ∧ countryOfPlace row.place = some c ∧ r = enrichRow row c := by
  intro rows
  induction rows with
  | nil =>
    intro tbl r h hr
    simp [attachCountries] at h
    subst h
    cases hr
  | cons row rest ih =>
    intro tbl r h hr
    unfold attachCountries at h
    rcases hc : countryOfPlace row.place with _ | c <;> rw [hc] at h
    · cases h
    · rcases ht : attachCountries rest with _ | tl <;> rw [ht] at h
      · cases h
      · cases h
        rcases List.mem_cons.mp hr with h1 | h1
        · exact ⟨row, c, List.mem_cons_self _ _, hc, h1⟩
        · obtain ⟨row', c', hm, hc', he⟩ := ih tl r ht h1
          exact ⟨row', c', List.mem_cons_of_mem _ hm, hc', he⟩

/-- A concrete feed of one valid feature, for evaluating the pipeline. -/
def demoFeature : RawFeature :=
  { place := some "10km SE of Tokyo, Japan"
    mag := some 5
    time := 1736899200000
    longitude := 139
    latitude := 35
    depth := some 10 }

def demoFeed : List RawFeature := [demoFeature]

def demoRecord : EventRecord := ((buildTable demoFeed).getD []).headD default

/-- C3: every record of the built table has hour in 0..23, and its hour, date
and year are exactly those of its UTC instant converted with the
America/Chicago transition rules; the offset applied really is
daylight-saving dependent (CST in January 2025, CDT in July 2025), not a
fixed offset. -/
theorem c3_local_time_fields :
    (∀ (fs : List RawFeature) (tbl : List EventRecord) (r : EventRecord),
        buildTable fs = some tbl → r ∈ tbl →
          (0 ≤ r.hour ∧ r.hour ≤ 23) ∧
          r.hour = hourOfLocal (r.time_utc + chicagoOffsetMs r.time_utc) ∧
          r.date = dateOfLocal (r.time_utc + chicagoOffsetMs r.time_utc) ∧
          r.year = (dateOfLocal (r.time_utc + chicagoOffsetMs r.time_utc)).year) ∧
    chicagoOffsetMs 1736899200000 = -6 * msPerHour ∧
    chicagoOffsetMs 1752246000000 = -5 * msPerHour := by
  refine ⟨?_, by decide, by decide⟩
  intro fs tbl r h hr
  unfold buildTable at h
  by_cases he : (normalize fs).isEmpty
  · rw [if_pos he] at h; cases h
  · rw [if_neg he] at h
    obtain ⟨row, c, _, _, hrec⟩ := attachCountries_mem (normalize fs) tbl r h hr
    subst hrec
    refine ⟨hourOfLocal_bounds _, ?_, ?_, ?_⟩ <;> simp [enrichRow, toCentralMs]

theorem c3_local_time_fields_witness :
    (0 ≤ demoRecord.hour ∧ demoRecord.hour ≤ 23) ∧
    demoRecord.hour = hourOfLocal (demoRecord.time_utc + chicagoOffsetMs demoRecord.time_utc) ∧
    demoRecord.date = dateOfLocal (demoRecord.time_utc + chicagoOffsetMs demoRecord.time_utc) ∧
    demoRecord.year =
      (dateOfLocal (demoRecord.time_utc + chicagoOffsetMs demoRecord.time_utc)).year :=
  c3_local_time_fields.1 demoFeed ((buildTable demoFeed).getD []) demoRecord
    (by decide) (by decide)

/-- The year/country filter of lines 53-55: select the rows of the target
year, then, when the country selection is non-empty, the rows whose country
is among the selected ones. -/
def filterTable (tbl : List EventRecord) (year : Int) (countries : List String) :
    List EventRecord :=
  let t1 := tbl.filter (fun r => r.year == year)
  if countries.isEmpty then t1
  else t1.filter (fun r => countries.contains r.country)

/-- C4: the filter returns exactly the subsequence of records of the target
year whose country is in the selected set when that set is non-empty (an
empty set imposing no restriction), preserving the relative order. -/
theorem c4_filter_characterization (tbl : List EventRecord) (year : Int)
    (countries : List String) :
    filterTable tbl year countries =
      tbl.filter (fun r =>
        r.year == year && (countries.isEmpty || countries.contains r.country)) ∧
    (filterTable tbl year countries).Sublist tbl := by
  constructor
  · unfold filterTable
    by_cases h : countries.isEmpty <;> simp [h, List.filter_filter, Bool.and_comm]
  · unfold filterTable
    by_cases h : countries.isEmpty
    · rw [if_pos h]
      exact List.filter_sublist tbl
    · rw [if_neg h]
      exact (List.filter_sublist _).trans (List.filter_sublist tbl)

/-- C2: the normalizer emits no row for a feature whose magnitude or depth is
null, and exactly one row per other feature with the fields copied verbatim
and time_utc taken from the epoch-milliseconds field, preserving order. -/
theorem c2_normalize_filterMap (fs : List RawFeature) :
    normalize fs = fs.filterMap specRecordOf := by
  induction fs with
  | nil => rfl
  | cons d rest ih =>
    rcases hm : d.mag with _ | m <;> rcases hd : d.depth with _ | dep <;>
      simp [normalize, specRecordOf, hm, hd, ih]

/-- C5: every pair present in the heatmap aggregation carries the number of
filtered records with exactly that (date, hour) pair, and a pair is present
exactly when some record has it. -/
theorem c5_heat_groupby (tbl : List EventRecord) :
    (∀ p ∈ heat_df tbl, p.2 = tbl.countP (fun r => decide (heatKey r = p.1))) ∧
    (∀ k : CivilDate × Int, (∃ n, (k, n) ∈ heat_df tbl) ↔ ∃ r ∈ tbl, heatKey r = k) := by
  have hnd : ((heat_df tbl).map Prod.fst).Nodup :=
    nodup_map_fst_foldl (tbl.map heatKey) [] (by simp)
  constructor
  · rintro ⟨k, n⟩ hp
    have h1 : assocCnt (heat_df tbl) k = n := assocCnt_of_mem (heat_df tbl) k n hnd hp
    have h2 : assocCnt (heat_df tbl) k = (tbl.map heatKey).countP (fun a => decide (a = k)) :=
      assocCnt_groupCounts (tbl.map heatKey) k
    have h3 : n = (tbl.map heatKey).countP (fun a => decide (a = k)) := by rw [← h1, h2]
    rw [List.countP_map] at h3
    exact h3
  · intro k
    constructor
    · rintro ⟨n, hn⟩
      have hf : k ∈ (heat_df tbl).map Prod.fst := List.mem_map.mpr ⟨(k, n), hn, rfl⟩
      have h2 := (mem_map_fst_foldl (tbl.map heatKey) [] k).mp hf
      simp only [List.map_nil, List.not_mem_nil, false_or] at h2
      obtain ⟨r, hr, hk⟩ := List.mem_map.mp h2
      exact ⟨r, hr, hk⟩
    · rintro ⟨r, hr, hk⟩
      have hks : k ∈ tbl.map heatKey := List.mem_map.mpr ⟨r, hr, hk⟩
      have hf : k ∈ (heat_df tbl).map Prod.fst :=
        (mem_map_fst_foldl (tbl.map heatKey) [] k).mpr (Or.inr hks)
      exact ⟨assocCnt (heat_df tbl) k, mem_of_mem_map_fst (heat_df tbl) k hf⟩

/-- A record with given date and hour and arbitrary other fields, for
concrete evaluations of the aggregations. -/
def mkDemoEvent (dt : CivilDate) (h : Int) : EventRecord :=
  { place := none
    magnitude := 0
    time_utc := 0
    time_local := 0
    hour := h
    date := dt
    year := dt.year
    depth_km := 0
    longitude := 0
    latitude := 0
    country := "Japan" }

def demoHeatTable : List EventRecord :=
  [mkDemoEvent ⟨2025, 1, 1⟩ 3, mkDemoEvent ⟨2025, 1, 1⟩ 3, mkDemoEvent ⟨2025, 1, 2⟩ 7]

theorem c5_heat_groupby_witness :
    2 = demoHeatTable.countP
          (fun r => decide (heatKey r = (((⟨2025, 1, 1⟩ : CivilDate), (3 : Int))))) :=
  (c5_heat_groupby demoHeatTable).1 ((((⟨2025, 1, 1⟩ : CivilDate), (3 : Int))), 2)
    (by decide)

/-- Minimum of a list of instants (0 for the empty list, unused case). -/
def listMin : List Int → Int
  | [] => 0
  | x :: xs => xs.foldl min x

/-- Maximum of a list of instants (0 for the empty list, unused case). -/
def listMax : List Int → Int
  | [] => 0
  | x :: xs => xs.foldl max x

/-- The 1-hour bucket a local instant falls into: its hour index since the
epoch (floor division, buckets aligned to hour boundaries). -/
def hourIndex (l : Int) : Int := l / msPerHour

/-- The consecutive bucket labels from hour index lo to hour index hi. -/
def bucketLabels (lo hi : Int) : List Int :=
  (List.range (hi - lo + 1).toNat).map (fun (k : Nat) => lo + (k : Int))

/-- df_ts of line 112: resample the filtered table's local timestamps into
fixed 1-hour, left-closed right-open buckets aligned to hour boundaries,
spanning the hour of the earliest through the hour of the latest timestamp,
and count each bucket (a bucket with no events still appears, with 0). -/
def df_ts (tbl : List EventRecord) : List (Int × Nat) :=
  let ts := tbl.map (fun r => r.time_local)
  if ts.isEmpty then []
  else
    (bucketLabels (hourIndex (listMin ts)) (hourIndex (listMax ts))).map
      (fun b => (b, ts.countP (fun x => decide (hourIndex x = b))))

theorem foldl_min_le (xs : List Int) :
    ∀ a : Int, xs.foldl min a ≤ a ∧ ∀ y ∈ xs, xs.foldl min a ≤ y := by
  induction xs with
  | nil => intro a; exact ⟨le_refl a, by intro y hy; cases hy⟩
  | cons x xs ih =>
    intro a
    have h := ih (min a x)
    refine ⟨h.1.trans (min_le_left a x), ?_⟩
    intro y hy
    rcases List.mem_cons.mp hy with rfl | hy
    · exact (List.foldl_cons ..) ▸ (h.1.trans (min_le_right a y))
    · exact h.2 y hy

theorem le_foldl_max (xs : List Int) :
    ∀ a : Int, a ≤ xs.foldl max a ∧ ∀ y ∈ xs, y ≤ xs.foldl max a := by
  induction xs with
  | nil => intro a; exact ⟨le_refl a, by intro y hy; cases hy⟩
  | cons x xs ih =>
    intro a
    have h := ih (max a x)
    refine ⟨(le_max_left a x).trans h.1, ?_⟩
    intro y hy
    rcases List.mem_cons.mp hy with rfl | hy
    · exact (le_max_right a y).trans h.1
    · exact h.2 y hy

theorem listMin_le (ts : List Int) : ∀ x ∈ ts, listMin ts ≤ x := by
  cases ts with
  | nil => intro x hx; cases hx
  | cons t rest =>
    intro x hx
    rcases List.mem_cons.mp hx with rfl | hx
    · exact (foldl_min_le rest x).1
    · exact (foldl_min_le rest t).2 x hx

theorem le_listMax (ts : List Int) : ∀ x ∈ ts, x ≤ listMax ts := by
  cases ts with
  | nil => intro x hx; cases hx
  | cons t rest =>
    intro x hx
    rcases List.mem_cons.mp hx with rfl | hx
    · exact (le_foldl_max rest x).1
    · exact (le_foldl_max rest t).2 x hx

theorem hourIndex_mono {a b : Int} (h : a ≤ b) : hourIndex a ≤ hourIndex b := by
  unfold hourIndex msPerHour
  omega

theorem hourIndex_eq_iff (b x : Int) :
    hourIndex x = b ↔ b * msPerHour ≤ x ∧ x < (b + 1) * msPerHour := by
  unfold hourIndex msPerHour
  omega

theorem countP_range_eq (lo b : Int) :
    ∀ N : Nat, (List.range N).countP (fun (k : Nat) => decide (b = lo + (k : Int))) =
      if lo ≤ b ∧ b < lo + (N : Int) then 1 else 0 := by
  intro N
  induction N with
  | zero =>
    simp only [List.range_zero, List.countP_nil, Nat.cast_zero, add_zero]
    rw [if_neg (by omega)]
  | succ N ih =>
    rw [List.range_succ, List.countP_append, ih, List.countP_cons]
    simp only [List.countP_nil, Nat.zero_add]
    simp only [decide_eq_true_eq]
    split_ifs <;> omega

theorem sum_map_add {α : Type} (l : List α) (f g : α → Nat) :
    (l.map (fun a => f a + g a)).sum = (l.map f).sum + (l.map g).sum := by
  induction l with
  | nil => rfl
  | cons a l ih =>
    simp only [List.map_cons, List.sum_cons, ih]
    omega

theorem sum_map_ite_eq_countP {α : Type} (l : List α) (p : α → Bool) :
    (l.map (fun a => if p a then 1 else 0)).sum = l.countP p := by
  induction l with
  | nil => rfl
  | cons a l ih =>
    simp only [List.map_cons, List.sum_cons, List.countP_cons, ih]
    split_ifs <;> omega

theorem sum_buckets (N : Nat) (lo : Int) :
    ∀ ts : List Int, (∀ x ∈ ts, lo ≤ hourIndex x ∧ hourIndex x < lo + (N : Int)) →
      ((List.range N).map
        (fun (k : Nat) => ts.countP (fun x => decide (hourIndex x = lo + (k : Int))))).sum
        = ts.length := by
  intro ts
  induction ts with
  | nil => intro _; simp
  | cons x ts ih =>
    intro h
    have hx := h x (List.mem_cons_self x ts)
    have hts : ∀ y ∈ ts, lo ≤ hourIndex y ∧ hourIndex y < lo + (N : Int) :=
      fun y hy => h y (List.mem_cons_of_mem x hy)
    simp only [List.countP_cons]
    rw [sum_map_add (List.range N)
      (fun (k : Nat) => ts.countP (fun x' => decide (hourIndex x' = lo + (k : Int))))
      (fun (k : Nat) => if decide (hourIndex x = lo + (k : Int)) then 1 else 0)]
    rw [ih hts, sum_map_ite_eq_countP]
    rw [countP_range_eq lo (hourIndex x) N, if_pos ⟨hx.1, hx.2⟩]
    simp [List.length_cons]

theorem hourIndex_span (m : Int) :
    hourIndex m * msPerHour ≤ m ∧ m < (hourIndex m + 1) * msPerHour := by
  unfold hourIndex msPerHour
  omega

theorem df_ts_eq (tbl : List EventRecord)
    (h : (tbl.map (fun r => r.time_local)).isEmpty = false) :
    df_ts tbl =
      (bucketLabels (hourIndex (listMin (tbl.map (fun r => r.time_local))))
          (hourIndex (listMax (tbl.map (fun r => r.time_local))))).map
        (fun b => (b, (tbl.map (fun r => r.time_local)).countP
          (fun x => decide (hourIndex x = b)))) := by
  simp [df_ts, h]

/-- C7: for a non-empty filtered table, the hourly series consists of fixed
1-hour right-open buckets: every listed bucket carries the number of records
whose local timestamp lies in its interval, every record lies in the interval
of exactly one listed bucket, the counts sum to the number of records, the
bucket labels are exactly the consecutive hour indices from that of the
earliest to that of the latest local timestamp (so empty buckets inside the
span still appear, with count 0), and the bucket grid covers the whole span. -/
theorem c7_hourly_buckets (tbl : List EventRecord) (hne : tbl ≠ []) :
    (∀ p ∈ df_ts tbl,
        p.2 = tbl.countP (fun r =>
          decide (p.1 * msPerHour ≤ r.time_local ∧
            r.time_local < (p.1 + 1) * msPerHour))) ∧
    (∀ r ∈ tbl,
        (df_ts tbl).countP (fun p =>
          decide (p.1 * msPerHour ≤ r.time_local ∧
            r.time_local < (p.1 + 1) * msPerHour)) = 1) ∧
    ((df_ts tbl).map Prod.snd).sum = tbl.length ∧
    (df_ts tbl).map Prod.fst =
      bucketLabels (hourIndex (listMin (tbl.map (fun r => r.time_local))))
        (hourIndex (listMax (tbl.map (fun r => r.time_local)))) ∧
    hourIndex (listMin (tbl.map (fun r => r.time_local))) * msPerHour ≤
        listMin (tbl.map (fun r => r.time_local)) ∧
    listMax (tbl.map (fun r => r.time_local)) <
        (hourIndex (listMax (tbl.map (fun r => r.time_local))) + 1) * msPerHour := by
  have hie : (tbl.map (fun r => r.time_local)).isEmpty = false := by
    cases tbl with
    | nil => exact absurd rfl hne
    | cons a l => rfl
  set ts := tbl.map (fun r => r.time_local) with hts
  set lo := hourIndex (listMin ts) with hlo
  set hi := hourIndex (listMax ts) with hhi
  set N := (hi - lo + 1).toNat with hNdef
  have hdf : df_ts tbl =
      (bucketLabels lo hi).map
        (fun b => (b, ts.countP (fun x => decide (hourIndex x = b)))) :=
    df_ts_eq tbl hie
  have hmem : ∀ x ∈ ts, lo ≤ hourIndex x ∧ hourIndex x ≤ hi := fun x hx =>
    ⟨hourIndex_mono (listMin_le ts x hx), hourIndex_mono (le_listMax ts x hx)⟩
  have hts0 : ts ≠ [] := by
    cases tbl with
    | nil => exact absurd rfl hne
    | cons a l => simp [hts]
  have hlohi : lo ≤ hi := by
    obtain ⟨x, hx⟩ := List.exists_mem_of_ne_nil ts hts0
    exact le_trans (hmem x hx).1 (hmem x hx).2
  have hNcast : (N : Int) = hi - lo + 1 := by rw [hNdef]; omega
  have hbound : ∀ x ∈ ts, lo ≤ hourIndex x ∧ hourIndex x < lo + (N : Int) := by
    intro x hx
    have h := hmem x hx
    omega
  refine ⟨?_, ?_, ?_, ?_, ?_, ?_⟩
  · intro p hp
    rw [hdf] at hp
    obtain ⟨b, hb, heq⟩ := List.mem_map.mp hp
    subst heq
    show ts.countP (fun x => decide (hourIndex x = b)) = _
    rw [hts, List.countP_map]
    have hfun : ((fun x => decide (hourIndex x = b)) ∘
        (fun r : EventRecord => r.time_local)) =
        (fun r : EventRecord => decide (b * msPerHour ≤ r.time_local ∧
          r.time_local < (b + 1) * msPerHour)) := by
      funext r
      exact decide_eq_decide.mpr (hourIndex_eq_iff b r.time_local)
    rw [hfun]
  · intro r hr
    have hx : r.time_local ∈ ts := by
      rw [hts]
      exact List.mem_map_of_mem (fun r => r.time_local) hr
    rw [hdf, List.countP_map]
    simp only [bucketLabels]
    rw [List.countP_map, ← hNdef]
    have hfun : (((fun p : Int × Nat => decide (p.1 * msPerHour ≤ r.time_local ∧
          r.time_local < (p.1 + 1) * msPerHour)) ∘
        (fun b => (b, ts.countP (fun x => decide (hourIndex x = b))))) ∘
          (fun (k : Nat) => lo + (k : Int))) =
        (fun (k : Nat) => decide (hourIndex r.time_local = lo + (k : Int))) := by
      funext k
      exact decide_eq_decide.mpr (hourIndex_eq_iff (lo + (k : Int)) r.time_local).symm
    rw [hfun, countP_range_eq lo (hourIndex r.time_local) N,
      if_pos (hbound r.time_local hx)]
  · rw [hdf, List.map_map]
    simp only [bucketLabels, List.map_map]
    rw [← hNdef]
    have hlen : ts.length = tbl.length := by rw [hts, List.length_map]
    exact (sum_buckets N lo ts hbound).trans hlen
  · have hid : (Prod.fst ∘ fun b : Int =>
        (b, ts.countP (fun x => decide (hourIndex x = b)))) = id := by
      funext b
      rfl
    rw [hdf, List.map_map, hid, List.map_id]
  · exact (hourIndex_span (listMin ts)).1
  · exact (hourIndex_span (listMax ts)).2

/-- A record with a given local timestamp and arbitrary other fields. -/
def mkDemoEventAt (t : Int) : EventRecord :=
  { mkDemoEvent ⟨2025, 1, 1⟩ 0 with time_local := t }

def demoTsTable : List EventRecord := [mkDemoEventAt 0, mkDemoEventAt 7200005]

theorem c7_hourly_buckets_witness :
    ((df_ts demoTsTable).map Prod.snd).sum = demoTsTable.length ∧
    (df_ts demoTsTable).map Prod.fst =
      bucketLabels (hourIndex (listMin (demoTsTable.map (fun r => r.time_local))))
        (hourIndex (listMax (demoTsTable.map (fun r => r.time_local)))) :=
  ⟨(c7_hourly_buckets demoTsTable (by decide)).2.2.1,
   (c7_hourly_buckets demoTsTable (by decide)).2.2.2.1⟩

/-- A feature the normalizer drops (null magnitude). -/
def nullMagFeature : RawFeature :=
  { place := some "10km N of Somewhere, Nowhere"
    mag := none
    time := 0
    longitude := 0
    latitude := 0
    depth := some 10 }

/-- C6 (code bug): with zero usable rows after normalization the DataFrame of
line 38 is built from an empty list and has no columns, so the column access
of line 39 raises a KeyError instead of producing an empty table — the
pipeline fails rather than degrading.  The embedding returns none (failure)
for the empty feed and for a feed whose only feature is dropped. -/
theorem c6_empty_feed_crashes :
    buildTable [] = none ∧
    normalize [nullMagFeature] = [] ∧
    buildTable [nullMagFeature] = none := by
  decide

/-- C8: each aggregation (by-country counts, by-date-and-hour counts, hourly
series) is a pure function of the filtered table: the embedded operations
take and return values and mutate nothing, so two computations on the same
table give identical results. -/
theorem c8_aggregations_pure (t1 t2 : List EventRecord) (h : t1 = t2) :
    countryCounts t1 = countryCounts t2 ∧ heat_df t1 = heat_df t2 ∧
    df_ts t1 = df_ts t2 := by
  subst h
  exact ⟨rfl, rfl, rfl⟩

theorem c8_aggregations_pure_witness :
    countryCounts demoHeatTable = countryCounts demoHeatTable ∧
    heat_df demoHeatTable = heat_df demoHeatTable ∧
    df_ts demoHeatTable = df_ts demoHeatTable :=
  c8_aggregations_pure demoHeatTable demoHeatTable rfl

/-- The state of a time-to-live cache: the creation instant (in seconds) and
the cached value, or nothing. -/
structure CacheState (α : Type) where
  entry : Option (Int × α)

def emptyCache {α : Type} : CacheState α := ⟨none⟩

/-- Modelled from the spec: the time-to-live cache the caching decorator of
line 18 puts around load_data (the cache itself lives in an external
library).  An access finding a cached value younger than ttl seconds returns
it without fetching; otherwise it fetches, stores the result stamped with the
access time, and returns it.  The Bool reports whether this access fetched. -/
def cacheAccess {α : Type} (ttl : Int) (fetch : Int → α) (now : Int)
    (s : CacheState α) : α × CacheState α × Bool :=
  match s.entry with
  | some (t0, v) =>
    if now - t0 < ttl then (v, s, false)
    else (fetch now, ⟨some (now, fetch now)⟩, true)
  | none => (fetch now, ⟨some (now, fetch now)⟩, true)

/-- load_data behind its 180-second cache: the fetch builds the table from
whatever the feed returns at fetch time. -/
def load_data_cached (feed : Int → List RawFeature) (now : Int)
    (s : CacheState (Option (List EventRecord))) :
    Option (List EventRecord) × CacheState (Option (List EventRecord)) × Bool :=
  cacheAccess 180 (fun t => buildTable (feed t)) now s

/-- C9: from an empty cache the first access fetches and creates the table;
a second access within 180 seconds of creation does not fetch and returns the
same table with the cache unchanged; an access more than 180 seconds after
creation fetches exactly once more and rebuilds the table from the feed. -/
theorem c9_cache_ttl (feed : Int → List RawFeature) (t0 t1 t2 : Int)
    (_h0 : 0 ≤ t1 - t0) (h1 : t1 - t0 < 180) (h2 : 180 < t2 - t0) :
    (load_data_cached feed t0 emptyCache).2.2 = true ∧
    (load_data_cached feed t1 (load_data_cached feed t0 emptyCache).2.1).2.2 = false ∧
    (load_data_cached feed t1 (load_data_cached feed t0 emptyCache).2.1).1 =
      (load_data_cached feed t0 emptyCache).1 ∧
    (load_data_cached feed t1 (load_data_cached feed t0 emptyCache).2.1).2.1 =
      (load_data_cached feed t0 emptyCache).2.1 ∧
    (load_data_cached feed t2 (load_data_cached feed t0 emptyCache).2.1).2.2 = true ∧
    (load_data_cached feed t2 (load_data_cached feed t0 emptyCache).2.1).1 =
      buildTable (feed t2) := by
  have hn2 : ¬(t2 - t0 < 180) := by omega
  simp [load_data_cached, cacheAccess, emptyCache, h1, hn2]

theorem c9_cache_ttl_witness :
    (load_data_cached (fun _ => demoFeed) 0 emptyCache).2.2 = true ∧
    (load_data_cached (fun _ => demoFeed) 100
        (load_data_cached (fun _ => demoFeed) 0 emptyCache).2.1).2.2 = false ∧
    (load_data_cached (fun _ => demoFeed) 100
        (load_data_cached (fun _ => demoFeed) 0 emptyCache).2.1).1 =
      (load_data_cached (fun _ => demoFeed) 0 emptyCache).1 ∧
    (load_data_cached (fun _ => demoFeed) 100
        (load_data_cached (fun _ => demoFeed) 0 emptyCache).2.1).2.1 =
      (load_data_cached (fun _ => demoFeed) 0 emptyCache).2.1 ∧
    (load_data_cached (fun _ => demoFeed) 200
        (load_data_cached (fun _ => demoFeed) 0 emptyCache).2.1).2.2 = true ∧
    (load_data_cached (fun _ => demoFeed) 200
        (load_data_cached (fun _ => demoFeed) 0 emptyCache).2.1).1 =
      buildTable ((fun _ : Int => demoFeed) 200) :=
  c9_cache_ttl (fun _ => demoFeed) 0 100 200 (by decide) (by decide) (by decide)

/-- A feature whose magnitude and depth are present but whose place is null. -/
def nullPlaceFeature : RawFeature :=
  { place := none
    mag := some 5
    time := 0
    longitude := 1
    latitude := 2
    depth := some 10 }

/-- C10: a feature with non-null magnitude and depth but a null place passes
the null checks of line 28, so the normalizer admits its row, and the country
derivation of line 43 then fails on that row (the comma test raises a
TypeError on None) — country extraction is not total on the rows the
normalizer admits, and the build fails. -/
theorem c10_null_place_not_total :
    (normalize [nullPlaceFeature]).length = 1 ∧
    countryOfPlace ((normalize [nullPlaceFeature]).headD default).place = none ∧
    buildTable [nullPlaceFeature] = none := by
  decide

end EQObs
